import Mathlib

/-!
Verification of the grouping / execution / fix-application pipeline of
`oelint_adv/__main__.py` (the `group_files` function and the orchestration in
`main`).  Paths and strings are modelled as `List Char`; Python dictionaries
(insertion ordered) are modelled as association lists; Python sets stored in
the dictionary are modelled as duplicate-free lists (the only operations the
source performs on them are `add`, membership-insensitive iteration through
`any`, and a final `sorted` keyed by position in the input list, none of which
depend on the internal set order).
-/

namespace OelintAdv

/-- A file path, as the Python code sees it: a string, modelled as a list of
characters. -/
abbrev Path := List Char

/-- Split a list at the *last* occurrence of `c`: returns the part strictly
before and strictly after that occurrence, or `none` when `c` does not occur.
Used to model `str.rfind` based splitting in `os.path.splitext`,
`os.path.basename` and `"_".join(s.split("_")[:-1])`. -/
def splitAtLast (c : Char) : List Char → Option (List Char × List Char)
  | [] => none
  | x :: xs =>
    match splitAtLast c xs with
    | some (pre, post) => some (x :: pre, post)
    | none => if x = c then some ([], xs) else none

/-- Python's `os.path.basename` (POSIX): everything after the last `'/'`. -/
def basenameL (l : Path) : Path :=
  match splitAtLast '/' l with
  | some (_, post) => post
  | none => l

/-- The extension split of a *basename*, following `genericpath._splitext`:
split at the last `'.'` provided at least one character before that dot is not
a dot (a purely-leading-dots name such as `".bbappend"` has no extension).
Returns `(stem-of-basename, extension-including-dot)`. -/
def splitextBase (base : Path) : Option (Path × Path) :=
  match splitAtLast '.' base with
  | some (stem, after) =>
    if stem.any (fun c => c ≠ '.') then some (stem, '.' :: after) else none
  | none => none

/-- Python's `os.path.splitext` (POSIX): returns `(root, ext)` where the extension is
taken at the last dot of the basename, subject to the leading-dot rule. -/
def splitext (l : Path) : Path × Path :=
  match splitAtLast '/' l with
  | some (dir, base) =>
    match splitextBase base with
    | some (stem, ext) => (dir ++ '/' :: stem, ext)
    | none => (l, [])
  | none =>
    match splitextBase l with
    | some (stem, ext) => (stem, ext)
    | none => (l, [])

/-- The key derivation
`"_".join(os.path.basename(stem).split("_")[:-1]).replace("%", "")`:
the group key derived from a file's extension-less name — everything before
the last underscore of its basename (empty when there is no underscore), with
all `%` wildcard markers removed.  Used for pass 1 and for the pass-2
fallback of `group_files`. -/
def filenameKey (stem : Path) : Path :=
  (match splitAtLast '_' (basenameL stem) with
   | some (pre, _) => pre
   | none => []).filter (fun c => c ≠ '%')

/-! ### The regular-expression fragment used by pass 2

The needle built by `group_files` is `".*/" + basename.replace("%", ".*")`.
Over file names whose characters are ordinary (no regex metacharacter other
than `'.'`, plus the `'%'` wildcard that the code itself expands to `".*"`),
such a pattern is a sequence of atoms — a literal character or the
any-character dot — each optionally starred.  We parse the pattern string into
that token list and decide `re.match` (anchored at the start only, the match
may end before the end of the subject) with a complete backtracking matcher. -/

/-- A regex atom of the generated patterns: a literal character or `'.'`. -/
inductive RAtom where
  | lit : Char → RAtom
  | dot : RAtom
deriving DecidableEq, Repr

/-- A pattern token: a single atom or a starred (zero-or-more) atom. -/
inductive RTok where
  | once : RAtom → RTok
  | star : RAtom → RTok
deriving DecidableEq, Repr

/-- Does the atom match one character? -/
def atomMatch : RAtom → Char → Bool
  | .lit c, x => c = x
  | .dot, _ => true

/-- Backtracking for a starred atom: try the continuation `k` (the rest of
the pattern) on the current suffix, else consume one character matched by the
atom and repeat.  Structured this way so that the matcher is structurally
recursive and computes by kernel reduction. -/
def starMatch (a : RAtom) (k : List Char → Bool) : List Char → Bool
  | [] => k []
  | x :: xs => k (x :: xs) || (atomMatch a x && starMatch a k xs)

/-- Python's `re.match` for a token-list pattern: the pattern must match some prefix of
the subject (Python's `re.match` anchors at the start only). -/
def reMatch : List RTok → List Char → Bool
  | [], _ => true
  | .once _ :: _, [] => false
  | .once a :: ts, x :: xs => atomMatch a x && reMatch ts xs
  | .star a :: ts, s => starMatch a (reMatch ts) s

/-- The atom denoted by one pattern character. -/
def atomOf (c : Char) : RAtom := if c = '.' then .dot else .lit c

/-- Parse a pattern string into tokens: a character followed by `'*'` becomes
a starred atom, any other character a single atom. -/
def parsePattern : List Char → List RTok
  | [] => []
  | c :: '*' :: rest => .star (atomOf c) :: parsePattern rest
  | c :: rest => .once (atomOf c) :: parsePattern rest

/-- The expansion `basename.replace("%", ".*")` — expand each wildcard marker to the
two-character any-sequence pattern. -/
def expandPercent (l : Path) : Path :=
  (l.map (fun c => if c = '%' then ['.', '*'] else [c])).flatten

/-- The needle `group_files` builds for an append file from its extension-less
name: `".*/" + os.path.basename(stem).replace("%", ".*")`, parsed. -/
def needleOf (stem : Path) : List RTok :=
  parsePattern ('.' :: '*' :: '/' :: expandPercent (basenameL stem))

/-! ### The Group Builder (`group_files`) -/

/-- The `res` dictionary of `group_files`: keys in insertion order, each with
its set of member files (kept duplicate-free). -/
abbrev Groups := List (Path × List Path)

/-- The insertion `res.setdefault(key, set()).add(f)` — add `f` to the group for `key`,
appending a fresh group at the end when the key is new (Python dictionaries
preserve insertion order). -/
def addToGroup (res : Groups) (key : Path) (f : Path) : Groups :=
  match res with
  | [] => [(key, [f])]
  | (k, v) :: rest =>
    if k = key then (k, if f ∈ v then v else v ++ [f]) :: rest
    else (k, v) :: addToGroup rest key f

/-- One iteration of the first loop of `group_files`: a `.bb` file is inserted
under its derived key, everything else is skipped. -/
def pass1step (res : Groups) (f : Path) : Groups :=
  let se := splitext f
  if se.2 = ".bb".toList then addToGroup res (filenameKey se.1) f else res

/-- The scan `for k, v in res.items(): if any(re.match(needle, x) for x in v)`
— the key of the first group (in insertion order) containing a member matched
by the needle. -/
def findMatch (needle : List RTok) : Groups → Option Path
  | [] => none
  | (k, v) :: rest =>
    if v.any (fun x => reMatch needle x) then some k else findMatch needle rest

/-- One iteration of the second loop of `group_files`: a `.bbappend` file
joins the first group holding a file matched by its wildcard needle, or falls
back to its own derived key; everything else is skipped. -/
def pass2step (res : Groups) (f : Path) : Groups :=
  let se := splitext f
  if se.2 = ".bbappend".toList then
    match findMatch (needleOf se.1) res with
    | some k => addToGroup res k f
    | none => addToGroup res (filenameKey se.1) f
  else res

/-- Python's `files.index(x)`: position of the first occurrence of `x` in `files`
(total here; `group_files` only ever looks up members that came from
`files`). -/
def idxOf (files : List Path) (x : Path) : Nat :=
  match files with
  | [] => 0
  | f :: fs => if f = x then 0 else idxOf fs x + 1

/-- The comparison used by `sorted(v, key=lambda i: files.index(i))`. -/
def idxLe (files : List Path) (a b : Path) : Prop :=
  idxOf files a ≤ idxOf files b

instance (files : List Path) : DecidableRel (idxLe files) :=
  fun a b => inferInstanceAs (Decidable (idxOf files a ≤ idxOf files b))

/-- The function `group_files` of `oelint_adv/__main__.py`: pass 1 groups `.bb` files by
derived key, pass 2 attaches `.bbappend` files by needle match with key-based
fallback, and each group is finally sorted by position in the input list
(`res.values()`, in key-insertion order). -/
def group_files (files : List Path) : List (List Path) :=
  let res := List.foldl pass2step (List.foldl pass1step [] files) files
  res.map (fun kv => List.insertionSort (idxLe files) kv.2)

instance (files : List Path) : IsTotal Path (idxLe files) :=
  ⟨fun a b => Nat.le_total (idxOf files a) (idxOf files b)⟩

instance (files : List Path) : IsTrans Path (idxLe files) :=
  ⟨fun _ _ _ h1 h2 => Nat.le_trans h1 h2⟩

/-! ## The orchestration in `main`

The rule objects and the `Stash` container come from outside this repository
(`oelint_adv.cls_rule` / `oelint_parser.cls_stash`); `main` consumes them
through a narrow interface, so they are modelled as abstract parameters: a
`Rule` record carrying the `OnAppend`/`OnlyAppend` flags and the
`check`/`fix` operations, and a `StashModel` record over an abstract state
type `σ` carrying `AddFile` (which fails with `none` where the Python raises
`FileNotFoundError`), `Finalize`, `GetRecipes`, `GetLoneAppends`,
`GetLinksForFile` and `GetItemsFor`.  A rule's `fix` may mutate the stash, so
it returns the new stash state together with the list of fixed files.

The observable side effects of the loop — rule invocations, skip diagnostics,
backup renames and file rewrites — are recorded in an event trace.  The
progress line (`"{}/{} files checked"`) and the debug line after a rewrite
are purely informational prints carrying no data the claims mention and are
not recorded. -/

/-- A finding as `main` handles it: a `(sort key, display line)` tuple. -/
abbrev Finding := Path × Path

/-- An observable event of the execution loop and the fix transaction.  Rules
are identified by their position in the rule list. -/
inductive Ev where
  | fixCall : Nat → Path → Ev
  | checkCall : Nat → Path → Ev
  | skipLog : Path → Ev
  | rename : Path → Path → Ev
  | rewrite : Path → Path → Ev
deriving DecidableEq, Repr

/-- The command-line switches `main` consults in the loop. -/
structure Args where
  fix : Bool
  nobackup : Bool
  quiet : Bool
deriving DecidableEq, Repr

/-- The rule collaborator interface (external, see `oelint_adv.cls_rule`). -/
structure Rule (σ : Type) where
  onAppend : Bool
  onlyAppend : Bool
  fix : Path → σ → σ × List Path
  check : Path → σ → List Finding

/-- The `Stash` collaborator interface (external, see
`oelint_parser.cls_stash`). -/
structure StashModel (σ : Type) where
  init : σ
  addFile : σ → Path → Option σ
  finalize : σ → σ
  getRecipes : σ → List Path
  getLoneAppends : σ → List Path
  getLinksForFile : σ → Path → List Path
  getItemsFor : σ → Path → List Path

/-- Python's `f.endswith(".bbappend")`. -/
def isAppendFile (f : Path) : Bool := List.isSuffixOf (".bbappend".toList) f

/-- The mutable state threaded through one group's rule execution. -/
structure LintState (σ : Type) where
  stash : σ
  issues : List Finding
  fixedfiles : List Path
  trace : List Ev

/-- Lines 126-130 of `main`: feed every file of the group to the stash; a
`FileNotFoundError` (`addFile` returning `none`) is caught, logged unless
`--quiet`, and the loop continues with the remaining files. -/
def ingest {σ : Type} (addFile : σ → Path → Option σ) (quiet : Bool)
    (st : σ × List Ev) (group : List Path) : σ × List Ev :=
  group.foldl (fun st f =>
    match addFile st.1 f with
    | some s1 => (s1, st.2)
    | none => (st.1, st.2 ++ (if quiet then [] else [Ev.skipLog f]))) st

/-- An `addFile` operation whose success depends only on the file (the
Python `FileNotFoundError` case: the file on disk is unreadable). -/
def readableAddFile {σ : Type} (readable : Path → Bool) (upd : σ → Path → σ) :
    σ → Path → Option σ :=
  fun s f => if readable f then some (upd s f) else none

/-- Lines 136-143 of `main`, one rule against one file: skip when the rule
does not apply to append files and the file is one, skip when it applies only
to append files and the file is not one; otherwise in fix mode run `fix`
first (stash mutated, returned files appended to `fixedfiles`) and then
`check` on the mutated stash (findings appended to `issues`); without fix
mode only `check` runs. -/
def applyRule {σ : Type} (args : Args) (j : Nat) (r : Rule σ) (f : Path)
    (st : LintState σ) : LintState σ :=
  if !r.onAppend && isAppendFile f then st
  else if r.onlyAppend && !isAppendFile f then st
  else if args.fix then
    let p := r.fix f st.stash
    { stash := p.1
      issues := st.issues ++ r.check f p.1
      fixedfiles := st.fixedfiles ++ p.2
      trace := st.trace ++ [Ev.fixCall j f, Ev.checkCall j f] }
  else
    { st with
      issues := st.issues ++ r.check f st.stash
      trace := st.trace ++ [Ev.checkCall j f] }

/-- The loop `for r in rules:` starting at rule index `j`. -/
def applyRulesFrom {σ : Type} (args : Args) (rules : List (Rule σ)) (j : Nat)
    (f : Path) (st : LintState σ) : LintState σ :=
  match rules with
  | [] => st
  | r :: rs => applyRulesFrom args rs (j + 1) f (applyRule args j r f st)

/-- Lines 135-143 of `main`: every rule against every target file. -/
def runFiles {σ : Type} (args : Args) (rules : List (Rule σ))
    (files : List Path) (st : LintState σ) : LintState σ :=
  files.foldl (fun st f => applyRulesFrom args rules 0 f st) st

/-- The events `applyRule` appends for one (rule, file) pair. -/
def ruleEvents {σ : Type} (fixMode : Bool) (j : Nat) (r : Rule σ) (f : Path) :
    List Ev :=
  if !r.onAppend && isAppendFile f then []
  else if r.onlyAppend && !isAppendFile f then []
  else if fixMode then [Ev.fixCall j f, Ev.checkCall j f]
  else [Ev.checkCall j f]

/-- The events of the whole rule loop for one file, rules numbered from `j`. -/
def fileEvents {σ : Type} (fixMode : Bool) (rules : List (Rule σ)) (j : Nat)
    (f : Path) : List Ev :=
  match rules with
  | [] => []
  | r :: rs => ruleEvents fixMode j r f ++ fileEvents fixMode rs (j + 1) f

/-- Lines 151-156 of `main`, the per-file part of the fix transaction:
backup rename (skipped with `--nobackup`) and then the rewrite of the file
from the concatenated `RealRaw` of its stash items. -/
def fixFileEvents {σ : Type} (SM : StashModel σ) (args : Args) (stash : σ)
    (i : Path) : List Ev :=
  (if args.nobackup then [] else [Ev.rename i (i ++ ".bak".toList)]) ++
    [Ev.rewrite i ((SM.getItemsFor stash i).flatten)]

/-- Lines 147-156 of `main`: for every fixed file, process the file itself
plus every file the stash links to it. -/
def fixTransaction {σ : Type} (SM : StashModel σ) (args : Args) (stash : σ)
    (fixedfiles : List Path) : List Ev :=
  (fixedfiles.map (fun f =>
    ((f :: SM.getLinksForFile stash f).map (fixFileEvents SM args stash)).flatten)).flatten

/-- Lines 124-157 of `main`, one group: fresh stash, ingestion, finalize,
target files `list(set(GetRecipes() + GetLoneAppends()))` (an unordered set —
modelled by `dedup`, keeping first occurrences; no claim depends on its
order), the rule loop, then `fixedfiles = list(set(fixedfiles))` and the fix
transaction.  `issues` and `fixedfiles` accumulate across groups. -/
def groupRun {σ : Type} (SM : StashModel σ) (args : Args)
    (rules : List (Rule σ)) (acc : List Finding × List Path × List Ev)
    (group : List Path) : List Finding × List Path × List Ev :=
  let ing := ingest SM.addFile args.quiet (SM.init, acc.2.2) group
  let stash1 := SM.finalize ing.1
  let targets := (SM.getRecipes stash1 ++ SM.getLoneAppends stash1).dedup
  let st := runFiles args rules targets
    { stash := stash1, issues := acc.1, fixedfiles := acc.2.1, trace := ing.2 }
  let fixedfiles := st.fixedfiles.dedup
  (st.issues, fixedfiles, st.trace ++ fixTransaction SM args st.stash fixedfiles)

/-- Lines 120-157 of `main`: every group in the order `group_files`
produced. -/
def mainPipeline {σ : Type} (SM : StashModel σ) (args : Args)
    (rules : List (Rule σ)) (files : List Path) :
    List Finding × List Path × List Ev :=
  (group_files files).foldl (groupRun SM args rules) ([], [], [])

/-- Python string comparison (lexicographic by code point), as `sorted` uses
on the sort keys. -/
def lexLe : List Char → List Char → Bool
  | [], _ => true
  | _ :: _, [] => false
  | a :: as, b :: bs => if a = b then lexLe as bs else decide (a < b)

/-- The order `sorted(set(issues), key=lambda x: x[0])` sorts by. -/
def keyLe (a b : Finding) : Prop := lexLe a.1 b.1 = true

instance : DecidableRel keyLe :=
  fun a b => inferInstanceAs (Decidable (lexLe a.1 b.1 = true))

instance : IsTotal Finding keyLe := by
  refine ⟨fun a b => ?_⟩
  show lexLe a.1 b.1 = true ∨ lexLe b.1 a.1 = true
  generalize a.1 = la
  generalize b.1 = lb
  induction la generalizing lb with
  | nil => left; rfl
  | cons x xs ih =>
    cases lb with
    | nil => right; rfl
    | cons y ys =>
      by_cases hxy : x = y
      · subst hxy
        rcases ih ys with h | h
        · left; simp [lexLe, h]
        · right; simp [lexLe, h]
      · rcases lt_or_gt_of_ne hxy with hlt | hgt
        · left; simp [lexLe, hxy, hlt]
        · right
          have hyx : ¬y = x := fun he => hxy he.symm
          simp [lexLe, hyx, hgt]

instance : IsTrans Finding keyLe := by
  refine ⟨fun a b c hab hbc => ?_⟩
  obtain ⟨ka, va⟩ := a
  obtain ⟨kb, vb⟩ := b
  obtain ⟨kc, vc⟩ := c
  simp only [keyLe] at hab hbc ⊢
  clear va vb vc
  induction ka generalizing kb kc with
  | nil => rfl
  | cons x xs ih =>
    cases kb with
    | nil => simp [lexLe] at hab
    | cons y ys =>
      cases kc with
      | nil => simp [lexLe] at hbc
      | cons z zs =>
        by_cases hxy : x = y <;> by_cases hyz : y = z
        · subst hxy; subst hyz
          simp [lexLe] at hab hbc ⊢
          exact ih _ hab _ hbc
        · subst hxy
          simp [lexLe, hyz] at hbc ⊢
          exact hbc
        · subst hyz
          simp [lexLe, hxy] at hab ⊢
          exact hab
        · simp [lexLe, hxy] at hab
          simp [lexLe, hyz] at hbc
          have hxz : x < z := lt_trans hab hbc
          have hne : ¬x = z := ne_of_lt hxz
          simp [lexLe, hne, hxz]

/-- Line 159: `issues = sorted(set(issues), key=lambda x: x[0])`.  The
Python set is modelled by `dedup` (the set's iteration order is arbitrary;
`sorted` is stable, so only the relative order of distinct findings with
equal keys depends on it, which no claim mentions). -/
def reportedFindings (issues : List Finding) : List Finding :=
  List.insertionSort keyLe issues.dedup

/-- Line 163: the display lines written to the output sink, in order. -/
def outputLines (issues : List Finding) : List Path :=
  (reportedFindings issues).map Prod.snd

/-- Line 166: the argument `main` passes to `sys.exit`. -/
def exitArg (issues : List Finding) : Nat := (reportedFindings issues).length

/-- How one run of the body of `main`'s `try` block ends: it either reaches
`sys.exit(n)` or some exception escapes the pipeline. -/
inductive PipelineOutcome where
  | completed : Nat → PipelineOutcome
  | raised : String → PipelineOutcome
deriving DecidableEq, Repr

/-- How the process ends. -/
inductive RunEnd where
  | exited : Nat → RunEnd
  | oopsReturned : List Path → RunEnd
deriving DecidableEq, Repr

/-- Lines 113 and 167-170 of `main`: `sys.exit(n)` raises `SystemExit`,
which derives from `BaseException`, not `Exception`, so the handler lets it
propagate and the process exits with status `n`; every other exception is
caught, the `OOPS` diagnostic naming `args.files` is printed together with a
traceback, and `main` falls off the end — returning `None`. -/
def mainTop (files : List Path) : PipelineOutcome → RunEnd
  | .completed n => .exited n
  | .raised _ => .oopsReturned files

/-- The numeric status the operating system observes: `SystemExit(n)`
carries `n`; `main` returning normally lets the interpreter exit with 0. -/
def observedExit : RunEnd → Nat
  | .exited n => n
  | .oopsReturned _ => 0

/-- A fault-free run of `main` end to end: the pipeline's findings are
reported and their unique count is passed to `sys.exit`. -/
def mainRun {σ : Type} (SM : StashModel σ) (args : Args)
    (rules : List (Rule σ)) (files : List Path) : RunEnd :=
  mainTop files (.completed (exitArg (mainPipeline SM args rules files).1))

/-- A concrete stash model over `σ := List Path` used to instantiate the
universally quantified theorems on explicit inputs: the state lists the
successfully added files, `"bad"` is unreadable, every file is linked to
`lnk` and carries one item `itm`. -/
def demoSM : StashModel (List Path) where
  init := []
  addFile := readableAddFile (fun f => decide (f ≠ "bad".toList)) (fun s f => s ++ [f])
  finalize := id
  getRecipes := id
  getLoneAppends := fun _ => []
  getLinksForFile := fun _ _ => ["lnk".toList]
  getItemsFor := fun _ _ => ["itm".toList]

/-- A concrete rule used to instantiate the theorems: applicable to every
file, fixing `fxd` and reporting one finding. -/
def demoRule : Rule (List Path) where
  onAppend := true
  onlyAppend := false
  fix := fun _ s => (s, ["fxd".toList])
  check := fun _ _ => [("k".toList, "line".toList)]

/-! ### Supporting lemmas about the group dictionary -/

/-- All member files of all groups, concatenated. -/
def resElems (res : Groups) : List Path := (res.map Prod.snd).flatten

/-- The number of groups whose member set contains `x`. -/
def groupCount (res : Groups) (x : Path) : Nat :=
  res.countP (fun kv => decide (x ∈ kv.2))

theorem addToGroup_mem (res : Groups) (k f : Path) :
    ∃ v, (k, v) ∈ addToGroup res k f ∧ f ∈ v := by
  induction res with
  | nil => exact ⟨[f], by simp [addToGroup], by simp⟩
  | cons kv rest ih =>
    obtain ⟨k1, v1⟩ := kv
    by_cases h : k1 = k
    · subst h
      by_cases hf : f ∈ v1
      · exact ⟨v1, by simp [addToGroup, hf], hf⟩
      · exact ⟨v1 ++ [f], by simp [addToGroup, hf], by simp⟩
    · obtain ⟨v, hv, hfv⟩ := ih
      exact ⟨v, by simp [addToGroup, h, hv], hfv⟩

theorem addToGroup_superset {res : Groups} {k0 : Path} {v0 : List Path}
    (hkv : (k0, v0) ∈ res) (k f : Path) :
    ∃ v', (k0, v') ∈ addToGroup res k f ∧ v0 ⊆ v' := by
  induction res with
  | nil => cases hkv
  | cons kv rest ih =>
    obtain ⟨k1, v1⟩ := kv
    by_cases h : k1 = k
    · subst h
      rcases List.mem_cons.mp hkv with heq | hmem
      · obtain ⟨rfl, rfl⟩ := Prod.mk.injEq .. ▸ And.intro (congrArg Prod.fst heq) (congrArg Prod.snd heq)
        by_cases hf : f ∈ v0
        · exact ⟨v0, by simp [addToGroup, hf], List.Subset.refl _⟩
        · exact ⟨v0 ++ [f], by simp [addToGroup, hf], by simp⟩
      · exact ⟨v0, by simp [addToGroup, hmem], List.Subset.refl _⟩
    · rcases List.mem_cons.mp hkv with heq | hmem
      · exact ⟨v0, by simp [addToGroup, h, heq], List.Subset.refl _⟩
      · obtain ⟨v', hv', s⟩ := ih hmem
        exact ⟨v', by simp [addToGroup, h, hv'], s⟩

theorem addToGroup_update {res : Groups} (hKU : (res.map Prod.fst).Nodup)
    {k : Path} {v : List Path} (hv : (k, v) ∈ res) (f : Path) :
    ∃ v', (k, v') ∈ addToGroup res k f ∧ v ⊆ v' ∧ f ∈ v' := by
  induction res with
  | nil => cases hv
  | cons kv rest ih =>
    obtain ⟨k1, v1⟩ := kv
    by_cases h : k1 = k
    · subst h
      have hk1 : k1 ∉ rest.map Prod.fst := (List.nodup_cons.mp (by simpa using hKU)).1
      rcases List.mem_cons.mp hv with heq | hmem
      · have hv1 : v = v1 := by
          have := congrArg Prod.snd heq; simpa using this
        subst hv1
        by_cases hf : f ∈ v
        · exact ⟨v, by simp [addToGroup, hf], List.Subset.refl _, hf⟩
        · exact ⟨v ++ [f], by simp [addToGroup, hf], by simp, by simp⟩
      · exact absurd (List.mem_map_of_mem Prod.fst hmem) hk1
    · rcases List.mem_cons.mp hv with heq | hmem
      · exact absurd (congrArg Prod.fst heq).symm h
      · have hrest : (rest.map Prod.fst).Nodup := (List.nodup_cons.mp (by simpa using hKU)).2
        obtain ⟨v', hv', s, hf⟩ := ih hrest hmem
        exact ⟨v', by simp [addToGroup, h, hv'], s, hf⟩

theorem mem_resElems_addToGroup {res : Groups} {k f x : Path} :
    x ∈ resElems (addToGroup res k f) → x ∈ resElems res ∨ x = f := by
  induction res with
  | nil => intro h; right; simpa [addToGroup, resElems] using h
  | cons kv rest ih =>
    obtain ⟨k1, v1⟩ := kv
    by_cases h : k1 = k
    · subst h
      by_cases hf : f ∈ v1
      · intro hx; left; simpa [addToGroup, hf, resElems] using hx
      · intro hx
        have hx' : x ∈ (v1 ++ [f]) ++ (rest.map Prod.snd).flatten := by
          simpa [addToGroup, hf, resElems] using hx
        rcases List.mem_append.mp hx' with h1 | h2
        · rcases List.mem_append.mp h1 with h1a | h1b
          · left; simp [resElems]; exact Or.inl h1a
          · right; simpa using h1b
        · left; simp [resElems]; exact Or.inr (by simpa [resElems] using h2)
    · intro hx
      have hx' : x ∈ v1 ++ resElems (addToGroup rest k f) := by
        simpa [addToGroup, h, resElems] using hx
      rcases List.mem_append.mp hx' with h1 | h2
      · left; simp [resElems]; exact Or.inl h1
      · rcases ih h2 with h3 | h3
        · left; simp [resElems]; right; simpa [resElems] using h3
        · right; exact h3

theorem groupCount_eq_zero {res : Groups} {x : Path} (h : x ∉ resElems res) :
    groupCount res x = 0 := by
  induction res with
  | nil => rfl
  | cons kv rest ih =>
    have hx1 : x ∉ kv.2 := fun hm => h (by simp [resElems]; exact Or.inl hm)
    have hx2 : x ∉ resElems rest := fun hm =>
      h (by simp [resElems]; right; simpa [resElems] using hm)
    simp [groupCount, List.countP_cons, hx1] at *
    exact ih hx2

theorem groupCount_addToGroup_ne {x f : Path} (hne : x ≠ f) (res : Groups) (k : Path) :
    groupCount (addToGroup res k f) x = groupCount res x := by
  induction res with
  | nil => simp [addToGroup, groupCount, List.countP_cons, hne]
  | cons kv rest ih =>
    obtain ⟨k1, v1⟩ := kv
    by_cases h : k1 = k
    · subst h
      by_cases hf : f ∈ v1
      · simp [addToGroup, hf]
      · have : (x ∈ v1 ++ [f]) ↔ (x ∈ v1) := by simp [hne]
        simp [addToGroup, hf, groupCount, List.countP_cons, this]
    · have e : addToGroup ((k1, v1) :: rest) k f = (k1, v1) :: addToGroup rest k f := by
        simp [addToGroup, h]
      rw [e]
      simp only [groupCount, List.countP_cons] at ih ⊢
      rw [ih]

theorem groupCount_addToGroup_fresh {res : Groups} {f : Path}
    (h : f ∉ resElems res) (k : Path) :
    groupCount (addToGroup res k f) f = 1 := by
  induction res with
  | nil => simp [addToGroup, groupCount, List.countP_cons]
  | cons kv rest ih =>
    obtain ⟨k1, v1⟩ := kv
    have hf1 : f ∉ v1 := fun hm => h (by simp [resElems]; exact Or.inl hm)
    have hf2 : f ∉ resElems rest := fun hm =>
      h (by simp [resElems]; right; simpa [resElems] using hm)
    by_cases hk : k1 = k
    · subst hk
      have e : addToGroup ((k1, v1) :: rest) k1 f = (k1, v1 ++ [f]) :: rest := by
        simp [addToGroup, hf1]
      rw [e]
      have hz : groupCount rest f = 0 := groupCount_eq_zero hf2
      simp only [groupCount, List.countP_cons] at hz ⊢
      simp [hz, List.mem_append]
    · have e : addToGroup ((k1, v1) :: rest) k f = (k1, v1) :: addToGroup rest k f := by
        simp [addToGroup, hk]
      rw [e]
      have hrec := ih hf2
      simp only [groupCount, List.countP_cons] at hrec ⊢
      simp [hrec, hf1]

theorem keys_addToGroup (res : Groups) (k f : Path) :
    (addToGroup res k f).map Prod.fst = res.map Prod.fst ∨
      ((addToGroup res k f).map Prod.fst = res.map Prod.fst ++ [k] ∧
        k ∉ res.map Prod.fst) := by
  induction res with
  | nil => right; simp [addToGroup]
  | cons kv rest ih =>
    obtain ⟨k1, v1⟩ := kv
    by_cases h : k1 = k
    · subst h; left; simp [addToGroup]
    · rcases ih with h1 | ⟨h1, h2⟩
      · left; simp [addToGroup, h, h1]
      · right
        constructor
        · simp [addToGroup, h, h1]
        · simp [h2]; exact fun hk => h hk.symm

theorem keysNodup_addToGroup {res : Groups} (h : (res.map Prod.fst).Nodup)
    (k f : Path) : ((addToGroup res k f).map Prod.fst).Nodup := by
  rcases keys_addToGroup res k f with h1 | ⟨h1, h2⟩
  · rw [h1]; exact h
  · rw [h1]
    refine List.nodup_append.mpr ⟨h, List.nodup_singleton _, ?_⟩
    intro a ha hb
    exact h2 ((List.mem_singleton.mp hb) ▸ ha)

/-! ### Lemmas about `findMatch` -/

theorem findMatch_isSome {needle : List RTok} {res : Groups} {k0 y : Path}
    {v0 : List Path} (hkv : (k0, v0) ∈ res) (hy : y ∈ v0)
    (hm : reMatch needle y = true) : ∃ k, findMatch needle res = some k := by
  induction res with
  | nil => cases hkv
  | cons kv rest ih =>
    obtain ⟨k1, v1⟩ := kv
    by_cases h : v1.any (fun x => reMatch needle x) = true
    · exact ⟨k1, by simp [findMatch, h]⟩
    · rcases List.mem_cons.mp hkv with heq | hmem
      · exfalso
        have hv : v0 = v1 := by have := congrArg Prod.snd heq; simpa using this
        subst hv
        exact h (List.any_eq_true.mpr ⟨y, hy, hm⟩)
      · obtain ⟨k, hk⟩ := ih hmem
        exact ⟨k, by simp [findMatch, h, hk]⟩

theorem findMatch_some {needle : List RTok} {res : Groups} {k : Path}
    (h : findMatch needle res = some k) :
    ∃ v, (k, v) ∈ res ∧ ∃ y ∈ v, reMatch needle y = true := by
  induction res with
  | nil => cases h
  | cons kv rest ih =>
    obtain ⟨k1, v1⟩ := kv
    by_cases hm : v1.any (fun x => reMatch needle x) = true
    · have hk : k1 = k := by simpa [findMatch, hm] using h
      subst hk
      obtain ⟨y, hy, hmy⟩ := List.any_eq_true.mp hm
      exact ⟨v1, List.mem_cons_self _ _, y, hy, hmy⟩
    · have h' : findMatch needle rest = some k := by simpa [findMatch, hm] using h
      obtain ⟨v, hv, hy⟩ := ih h'
      exact ⟨v, List.mem_cons_of_mem _ hv, hy⟩

/-! ### Shapes of the two passes and fold lemmas -/

theorem pass1step_shape (res : Groups) (f : Path) :
    pass1step res f = res ∨
      ((splitext f).2 = ".bb".toList ∧
        pass1step res f = addToGroup res (filenameKey (splitext f).1) f) := by
  by_cases h : (splitext f).2 = ".bb".toList
  · right
    refine ⟨h, ?_⟩
    show (if (splitext f).2 = ".bb".toList then
        addToGroup res (filenameKey (splitext f).1) f else res) = _
    rw [if_pos h]
  · left
    show (if (splitext f).2 = ".bb".toList then
        addToGroup res (filenameKey (splitext f).1) f else res) = res
    rw [if_neg h]

theorem pass2step_shape (res : Groups) (f : Path) :
    pass2step res f = res ∨
      ((splitext f).2 = ".bbappend".toList ∧
        ∃ k, pass2step res f = addToGroup res k f) := by
  by_cases h : (splitext f).2 = ".bbappend".toList
  · right
    refine ⟨h, ?_⟩
    have e : pass2step res f = (match findMatch (needleOf (splitext f).1) res with
        | some k => addToGroup res k f
        | none => addToGroup res (filenameKey (splitext f).1) f) := by
      show (if (splitext f).2 = ".bbappend".toList then _ else res) = _
      rw [if_pos h]
    cases hm : findMatch (needleOf (splitext f).1) res with
    | some k => exact ⟨k, by rw [e, hm]⟩
    | none => exact ⟨filenameKey (splitext f).1, by rw [e, hm]⟩
  · left
    show (if (splitext f).2 = ".bbappend".toList then _ else res) = res
    rw [if_neg h]

theorem pass1step_weak (res : Groups) (f : Path) :
    pass1step res f = res ∨ ∃ k, pass1step res f = addToGroup res k f := by
  rcases pass1step_shape res f with h | ⟨_, h⟩
  · exact Or.inl h
  · exact Or.inr ⟨_, h⟩

theorem pass2step_weak (res : Groups) (f : Path) :
    pass2step res f = res ∨ ∃ k, pass2step res f = addToGroup res k f := by
  rcases pass2step_shape res f with h | ⟨_, k, h⟩
  · exact Or.inl h
  · exact Or.inr ⟨k, h⟩

theorem foldl_superset {step : Groups → Path → Groups}
    (hstep : ∀ res f, step res f = res ∨ ∃ k, step res f = addToGroup res k f)
    {k0 : Path} :
    ∀ (L : List Path) (res : Groups) (v0 : List Path), (k0, v0) ∈ res →
      ∃ v', (k0, v') ∈ List.foldl step res L ∧ v0 ⊆ v' := by
  intro L
  induction L with
  | nil => intro res v0 h; exact ⟨v0, h, List.Subset.refl _⟩
  | cons g gs ih =>
    intro res v0 h
    rcases hstep res g with he | ⟨k, he⟩
    · rw [List.foldl_cons, he]; exact ih res v0 h
    · rw [List.foldl_cons, he]
      obtain ⟨v1, h1, s1⟩ := addToGroup_superset h k g
      obtain ⟨v', h', s'⟩ := ih _ v1 h1
      exact ⟨v', h', fun a ha => s' (s1 ha)⟩

theorem foldl_elems {step : Groups → Path → Groups} (P : Path → Prop)
    (hstep : ∀ res f, step res f = res ∨ (P f ∧ ∃ k, step res f = addToGroup res k f)) :
    ∀ (L : List Path) (res : Groups) (x : Path),
      x ∈ resElems (List.foldl step res L) → x ∈ resElems res ∨ (x ∈ L ∧ P x) := by
  intro L
  induction L with
  | nil => intro res x hx; exact Or.inl hx
  | cons g gs ih =>
    intro res x hx
    rw [List.foldl_cons] at hx
    rcases hstep res g with he | ⟨hP, k, he⟩
    · rw [he] at hx
      rcases ih res x hx with h1 | ⟨h1, h2⟩
      · exact Or.inl h1
      · exact Or.inr ⟨List.mem_cons_of_mem _ h1, h2⟩
    · rw [he] at hx
      rcases ih _ x hx with h1 | ⟨h1, h2⟩
      · rcases mem_resElems_addToGroup h1 with h2 | rfl
        · exact Or.inl h2
        · exact Or.inr ⟨List.mem_cons_self _ _, hP⟩
      · exact Or.inr ⟨List.mem_cons_of_mem _ h1, h2⟩

theorem foldl_count_pres {step : Groups → Path → Groups} {x : Path} :
    ∀ (L : List Path),
      (∀ res f, f ∈ L → step res f = res ∨
        ∃ k, step res f = addToGroup res k f ∧ f ≠ x) →
      ∀ res : Groups, groupCount (List.foldl step res L) x = groupCount res x := by
  intro L
  induction L with
  | nil => intro _ res; rfl
  | cons g gs ih =>
    intro hstep res
    rw [List.foldl_cons]
    rcases hstep res g (List.mem_cons_self _ _) with he | ⟨k, he, hne⟩
    · rw [he]; exact ih (fun res f hf => hstep res f (List.mem_cons_of_mem _ hf)) res
    · rw [he]
      rw [ih (fun res f hf => hstep res f (List.mem_cons_of_mem _ hf)) _]
      exact groupCount_addToGroup_ne (fun h => hne h.symm) res k

theorem foldl_keysNodup {step : Groups → Path → Groups}
    (hstep : ∀ res f, step res f = res ∨ ∃ k, step res f = addToGroup res k f) :
    ∀ (L : List Path) (res : Groups), (res.map Prod.fst).Nodup →
      ((List.foldl step res L).map Prod.fst).Nodup := by
  intro L
  induction L with
  | nil => intro res h; exact h
  | cons g gs ih =>
    intro res h
    rw [List.foldl_cons]
    rcases hstep res g with he | ⟨k, he⟩
    · rw [he]; exact ih res h
    · rw [he]; exact ih _ (keysNodup_addToGroup h k g)

theorem pass1_mem {files : List Path} {f : Path} (hf : f ∈ files)
    (hext : (splitext f).2 = ".bb".toList) :
    ∀ res : Groups,
      ∃ v, (filenameKey (splitext f).1, v) ∈ List.foldl pass1step res files ∧ f ∈ v := by
  induction files with
  | nil => cases hf
  | cons g gs ih =>
    intro res
    rcases List.mem_cons.mp hf with rfl | hmem
    · rw [List.foldl_cons]
      have hstep : pass1step res f = addToGroup res (filenameKey (splitext f).1) f := by
        simp [pass1step, hext]
      rw [hstep]
      obtain ⟨v, hv, hfv⟩ := addToGroup_mem res (filenameKey (splitext f).1) f
      obtain ⟨v', hv', s⟩ := foldl_superset pass1step_weak gs _ v hv
      exact ⟨v', hv', s hfv⟩
    · rw [List.foldl_cons]; exact ih hmem _

/-! ### Further support lemmas for the claims about `group_files` -/

theorem pass1step_of_bb {f : Path} (h : (splitext f).2 = ".bb".toList) (res : Groups) :
    pass1step res f = addToGroup res (filenameKey (splitext f).1) f := by
  show (if (splitext f).2 = ".bb".toList then
      addToGroup res (filenameKey (splitext f).1) f else res) = _
  rw [if_pos h]

theorem pass2step_of_append {f : Path} (h : (splitext f).2 = ".bbappend".toList)
    (res : Groups) : ∃ k, pass2step res f = addToGroup res k f := by
  rcases hm : findMatch (needleOf (splitext f).1) res with _ | k
  · refine ⟨filenameKey (splitext f).1, ?_⟩
    show (if (splitext f).2 = ".bbappend".toList then
        (match findMatch (needleOf (splitext f).1) res with
          | some k1 => addToGroup res k1 f
          | none => addToGroup res (filenameKey (splitext f).1) f)
      else res) = _
    rw [if_pos h, hm]
  · refine ⟨k, ?_⟩
    show (if (splitext f).2 = ".bbappend".toList then
        (match findMatch (needleOf (splitext f).1) res with
          | some k1 => addToGroup res k1 f
          | none => addToGroup res (filenameKey (splitext f).1) f)
      else res) = _
    rw [if_pos h, hm]

theorem pass2step_match {f : Path} (h : (splitext f).2 = ".bbappend".toList)
    {res : Groups} {k : Path}
    (hm : findMatch (needleOf (splitext f).1) res = some k) :
    pass2step res f = addToGroup res k f := by
  show (if (splitext f).2 = ".bbappend".toList then
      (match findMatch (needleOf (splitext f).1) res with
        | some k1 => addToGroup res k1 f
        | none => addToGroup res (filenameKey (splitext f).1) f)
    else res) = _
  rw [if_pos h, hm]

theorem pass1_elems_hyp (res : Groups) (f : Path) :
    pass1step res f = res ∨
      ((splitext f).2 = ".bb".toList ∧ ∃ k, pass1step res f = addToGroup res k f) := by
  rcases pass1step_shape res f with h | ⟨h1, h2⟩
  · exact Or.inl h
  · exact Or.inr ⟨h1, _, h2⟩

theorem pass2_elems_hyp (res : Groups) (f : Path) :
    pass2step res f = res ∨
      ((splitext f).2 = ".bbappend".toList ∧ ∃ k, pass2step res f = addToGroup res k f) := by
  rcases pass2step_shape res f with h | ⟨h1, h2⟩
  · exact Or.inl h
  · exact Or.inr ⟨h1, h2⟩

theorem mem_resElems_of {res : Groups} {kv : Path × List Path} {x : Path}
    (hkv : kv ∈ res) (hx : x ∈ kv.2) : x ∈ resElems res := by
  induction res with
  | nil => cases hkv
  | cons kv1 rest ih =>
    rcases List.mem_cons.mp hkv with rfl | hmem
    · simp [resElems]; exact Or.inl hx
    · simp [resElems]; right
      have := ih hmem
      simpa [resElems] using this

theorem idxOf_inj {files : List Path} {a b : Path} (ha : a ∈ files) (hb : b ∈ files)
    (h : idxOf files a = idxOf files b) : a = b := by
  induction files with
  | nil => cases ha
  | cons f fs ih =>
    by_cases hfa : f = a <;> by_cases hfb : f = b
    · rw [← hfa, ← hfb]
    · exfalso; rw [idxOf, if_pos hfa, idxOf, if_neg hfb] at h; exact Nat.succ_ne_zero _ h.symm
    · exfalso; rw [idxOf, if_neg hfa, idxOf, if_pos hfb] at h; exact Nat.succ_ne_zero _ h
    · rw [idxOf, if_neg hfa, idxOf, if_neg hfb] at h
      have ha' : a ∈ fs := by
        rcases List.mem_cons.mp ha with he | hm
        · exact absurd he.symm hfa
        · exact hm
      have hb' : b ∈ fs := by
        rcases List.mem_cons.mp hb with he | hm
        · exact absurd he.symm hfb
        · exact hm
      exact ih ha' hb' (Nat.succ_injective h)

theorem nodup_members_addToGroup {res : Groups}
    (h : ∀ kv ∈ res, kv.2.Nodup) (k f : Path) :
    ∀ kv ∈ addToGroup res k f, kv.2.Nodup := by
  induction res with
  | nil =>
    intro kv hkv
    simp [addToGroup] at hkv
    rw [hkv]; simp
  | cons kv1 rest ih =>
    obtain ⟨k1, v1⟩ := kv1
    have hv1 : v1.Nodup := h _ (List.mem_cons_self _ _)
    have hrest : ∀ kv ∈ rest, kv.2.Nodup := fun kv hkv => h kv (List.mem_cons_of_mem _ hkv)
    by_cases hk : k1 = k
    · subst hk
      intro kv hkv
      by_cases hf : f ∈ v1
      · have e : addToGroup ((k1, v1) :: rest) k1 f = (k1, v1) :: rest := by
          simp [addToGroup, hf]
        rw [e] at hkv
        exact h kv hkv
      · have e : addToGroup ((k1, v1) :: rest) k1 f = (k1, v1 ++ [f]) :: rest := by
          simp [addToGroup, hf]
        rw [e] at hkv
        rcases List.mem_cons.mp hkv with rfl | hm
        · show (v1 ++ [f]).Nodup
          refine List.nodup_append.mpr ⟨hv1, List.nodup_singleton _, ?_⟩
          intro a ha hb
          exact hf ((List.mem_singleton.mp hb) ▸ ha)
        · exact hrest kv hm
    · intro kv hkv
      have e : addToGroup ((k1, v1) :: rest) k f = (k1, v1) :: addToGroup rest k f := by
        simp [addToGroup, hk]
      rw [e] at hkv
      rcases List.mem_cons.mp hkv with rfl | hm
      · exact hv1
      · exact ih hrest kv hm

theorem foldl_nodup_members {step : Groups → Path → Groups}
    (hstep : ∀ res f, step res f = res ∨ ∃ k, step res f = addToGroup res k f) :
    ∀ (L : List Path) (res : Groups), (∀ kv ∈ res, kv.2.Nodup) →
      ∀ kv ∈ List.foldl step res L, kv.2.Nodup := by
  intro L
  induction L with
  | nil => intro res h; exact h
  | cons g gs ih =>
    intro res h
    rw [List.foldl_cons]
    rcases hstep res g with he | ⟨k, he⟩
    · rw [he]; exact ih res h
    · rw [he]; exact ih _ (nodup_members_addToGroup h k g)

/-! ### Claim C1 -/

/-- C1, counterexample: in the input list below, the append file
`p/a.1.bbappend` has a wildcard pattern (`.*/a.1`, the `.` matching any
character) that matches the base file `s/aX1_3.bb` placed in pass 1, yet no
Group of the output contains both: the append is captured earlier by the
first Group, whose member `q/a%1.bbappend` its pattern also matches.  This
refutes the claim that such an append always lands in the matched base file's
Group. -/
theorem C1_counterexample :
    reMatch (needleOf (splitext ("p/a.1.bbappend".toList)).1) ("s/aX1_3.bb".toList) = true ∧
    (splitext ("s/aX1_3.bb".toList)).2 = ".bb".toList ∧
    (splitext ("p/a.1.bbappend".toList)).2 = ".bbappend".toList ∧
    ∀ g ∈ group_files (["r/axyz1_2.bb", "s/aX1_3.bb", "q/a%1.bbappend",
        "p/a.1.bbappend"].map String.toList),
      "p/a.1.bbappend".toList ∈ g → "s/aX1_3.bb".toList ∉ g := by
  decide

/-- C1 (amended): if an append file's wildcard pattern matches at least one
base file placed during pass 1, then the append file ends up in a Group that
contains at least one file matched by its pattern (it is never stranded in a
match-free Group of its own) — but that Group need not be the matched base
file's Group: the first Group containing any matched file wins. -/
theorem C1_append_joins_matching_group (files : List Path) (f b : Path)
    (hf : f ∈ files) (hext : (splitext f).2 = ".bbappend".toList)
    (hb : b ∈ files) (hbext : (splitext b).2 = ".bb".toList)
    (hm : reMatch (needleOf (splitext f).1) b = true) :
    ∃ g ∈ group_files files, f ∈ g ∧
      ∃ y ∈ g, reMatch (needleOf (splitext f).1) y = true := by
  -- pass 1 placed b in its key's group
  obtain ⟨vb, hvb, hbvb⟩ := pass1_mem hb hbext []
  have hKU1 : ((List.foldl pass1step [] files).map Prod.fst).Nodup :=
    foldl_keysNodup pass1step_weak files [] (by simp)
  -- split pass 2 at f's position
  obtain ⟨A, B, rfl⟩ := List.append_of_mem hf
  have e2 : List.foldl pass2step (List.foldl pass1step [] (A ++ f :: B)) (A ++ f :: B)
      = List.foldl pass2step
          (pass2step (List.foldl pass2step (List.foldl pass1step [] (A ++ f :: B)) A) f)
          B := by
    rw [List.foldl_append, List.foldl_cons]
  set resA := List.foldl pass2step (List.foldl pass1step [] (A ++ f :: B)) A with hresA
  have hKUA : (resA.map Prod.fst).Nodup :=
    foldl_keysNodup pass2step_weak A _ hKU1
  -- b survives into resA
  obtain ⟨vb', hvb', hsub⟩ := foldl_superset pass2step_weak A _ vb hvb
  have hbA : b ∈ vb' := hsub hbvb
  -- f's own step finds a match somewhere
  obtain ⟨k, hk⟩ := findMatch_isSome hvb' hbA hm
  have hstep : pass2step resA f = addToGroup resA k f := pass2step_match hext hk
  obtain ⟨v0, hv0, y0, hy0, hmy0⟩ := findMatch_some hk
  obtain ⟨v', hv', hsub', hfv'⟩ := addToGroup_update hKUA hv0 f
  have hy0' : y0 ∈ v' := hsub' hy0
  -- the group survives the rest of pass 2
  obtain ⟨v'', hv'', hsub''⟩ := foldl_superset pass2step_weak B _ v' (hstep ▸ hv')
  refine ⟨List.insertionSort (idxLe (A ++ f :: B)) v'', ?_, ?_, y0, ?_, hmy0⟩
  · unfold group_files
    rw [e2]
    exact List.mem_map_of_mem _ hv''
  · simpa using hsub'' hfv'
  · simpa using hsub'' hy0'

/-- Witness for C1: a simple batch in which a wildcard append matches the one
base file and ends up grouped with it. -/
theorem C1_append_joins_matching_group_witness :
    ("e/ab%.bbappend".toList ∈ ["d/ab_1.bb".toList, "e/ab%.bbappend".toList]) ∧
    ∃ g ∈ group_files ["d/ab_1.bb".toList, "e/ab%.bbappend".toList],
      "e/ab%.bbappend".toList ∈ g ∧
      ∃ y ∈ g, reMatch (needleOf (splitext ("e/ab%.bbappend".toList)).1) y = true :=
  ⟨by decide,
    C1_append_joins_matching_group
      ["d/ab_1.bb".toList, "e/ab%.bbappend".toList]
      ("e/ab%.bbappend".toList) ("d/ab_1.bb".toList)
      (by decide) (by decide) (by decide) (by decide) (by decide)⟩

/-! ### Claim C10 -/

/-- C2, counterexample: the same three files in two different input orders
produce different partitions.  The wildcard needle of `p/ax.bbappend` matches
both base files, so the append joins whichever base file's Group was created
first: with `d/ax_1.bb` first there is exactly one Group containing both
`d/ax_1.bb` and the append; with `e/axy_1.bb` first there is none.  Group
membership is therefore not order-stable. -/
theorem C2_counterexample :
    ((group_files (["d/ax_1.bb", "e/axy_1.bb", "p/ax.bbappend"].map
        String.toList)).countP
      (fun g => decide ("d/ax_1.bb".toList ∈ g ∧ "p/ax.bbappend".toList ∈ g)) = 1) ∧
    ((group_files (["e/axy_1.bb", "d/ax_1.bb", "p/ax.bbappend"].map
        String.toList)).countP
      (fun g => decide ("d/ax_1.bb".toList ∈ g ∧ "p/ax.bbappend".toList ∈ g)) = 0) := by
  decide

/-- C2 (amended): group membership is *not* stable under reordering of the
input list (see the counterexample); what does hold is the second half of the
claim: for every input list, the files inside each produced Group are listed
in strictly increasing order of their (first) position in that input list. -/
theorem C2_intra_group_input_order (files : List Path) (g : List Path)
    (hg : g ∈ group_files files) :
    g.Pairwise (fun a b => idxOf files a < idxOf files b) := by
  unfold group_files at hg
  obtain ⟨kv, hkv, rfl⟩ := List.mem_map.mp hg
  have hsorted : List.Sorted (idxLe files) (List.insertionSort (idxLe files) kv.2) :=
    List.sorted_insertionSort (idxLe files) kv.2
  have hnodupv : kv.2.Nodup :=
    foldl_nodup_members pass2step_weak files _
      (foldl_nodup_members pass1step_weak files [] (by intro kv h; cases h)) kv hkv
  have hnodup : (List.insertionSort (idxLe files) kv.2).Nodup :=
    (List.perm_insertionSort (idxLe files) kv.2).nodup_iff.mpr hnodupv
  have hmemfiles : ∀ x ∈ kv.2, x ∈ files := by
    intro x hx
    have hxe : x ∈ resElems (List.foldl pass2step (List.foldl pass1step [] files) files) :=
      mem_resElems_of hkv hx
    rcases foldl_elems _ pass2_elems_hyp files _ x hxe with h1 | ⟨h1, _⟩
    · rcases foldl_elems _ pass1_elems_hyp files [] x h1 with h2 | ⟨h2, _⟩
      · simp [resElems] at h2
      · exact h2
    · exact h1
  refine List.Pairwise.imp_of_mem ?_ (hsorted.and hnodup)
  intro a b ha hb hab
  have haf : a ∈ files := hmemfiles a (by simpa using ha)
  have hbf : b ∈ files := hmemfiles b (by simpa using hb)
  exact Nat.lt_of_le_of_ne hab.1 (fun he => hab.2 (idxOf_inj haf hbf he))

/-- Witness for C2 (amended): two base files sharing a key form one Group
listed in input order. -/
theorem C2_intra_group_input_order_witness :
    (["a_1.bb".toList, "a_2.bb".toList] ∈
        group_files ["a_1.bb".toList, "a_2.bb".toList]) ∧
    (["a_1.bb".toList, "a_2.bb".toList] : List Path).Pairwise
      (fun a b => idxOf ["a_1.bb".toList, "a_2.bb".toList] a <
        idxOf ["a_1.bb".toList, "a_2.bb".toList] b) :=
  ⟨by decide,
    C2_intra_group_input_order ["a_1.bb".toList, "a_2.bb".toList]
      ["a_1.bb".toList, "a_2.bb".toList] (by decide)⟩

/-! ### Claim C3 -/

/-- C3, counterexample: with a duplicated append path the partition property
fails.  In the list below `p/a.1.bbappend` occurs twice; on its first pass-2
visit no group matches and it falls back to its own key, but before its second
visit `q/a%1.bbappend` has joined the first group and is matched by the
pattern `.*/a.1` (the `.` matching the `%`), so the duplicate is also added
to the first group — the file ends up in two distinct Groups, not exactly
one. -/
theorem C3_counterexample :
    (group_files (["r/axyz1_2.bb", "p/a.1.bbappend", "q/a%1.bbappend",
        "p/a.1.bbappend"].map String.toList)).countP
      (fun g => decide ("p/a.1.bbappend".toList ∈ g)) = 2 := by
  decide

/-- C3 (amended): for every *duplicate-free* input list the output is a
partition of the recognized files — a file with extension `.bb` or
`.bbappend` lies in exactly one Group and every other file in none.  (With
duplicated input paths an append file can land in two Groups, see the
counterexample.) -/
theorem C3_partition_of_nodup (files : List Path) (hnd : files.Nodup) (x : Path) :
    (group_files files).countP (fun g => decide (x ∈ g)) =
      if x ∈ files ∧
          ((splitext x).2 = ".bb".toList ∨ (splitext x).2 = ".bbappend".toList)
      then 1 else 0 := by
  have stageA : (group_files files).countP (fun g => decide (x ∈ g)) =
      groupCount (List.foldl pass2step (List.foldl pass1step [] files) files) x := by
    unfold group_files groupCount
    rw [List.countP_map]
    apply List.countP_congr
    intro kv _
    simp
  rw [stageA]
  by_cases hrec : x ∈ files ∧
      ((splitext x).2 = ".bb".toList ∨ (splitext x).2 = ".bbappend".toList)
  · rw [if_pos hrec]
    obtain ⟨hxf, hext⟩ := hrec
    obtain ⟨A, B, rfl⟩ := List.append_of_mem hxf
    have hsplit := List.nodup_append.mp hnd
    have hnA : x ∉ A := fun hx => hsplit.2.2 hx (List.mem_cons_self _ _)
    have hnB : x ∉ B := (List.nodup_cons.mp hsplit.2.1).1
    rcases hext with hbb | hba
    · -- x is a base file: pass 1 places it exactly once
      have hfresh : x ∉ resElems (List.foldl pass1step [] A) := by
        intro hx
        rcases foldl_elems _ pass1_elems_hyp A [] x hx with h2 | ⟨h2, _⟩
        · simp [resElems] at h2
        · exact hnA h2
      have hB : ∀ res f, f ∈ B → pass1step res f = res ∨
          ∃ k, pass1step res f = addToGroup res k f ∧ f ≠ x := by
        intro res f hf
        rcases pass1step_weak res f with h | ⟨k, h⟩
        · exact Or.inl h
        · exact Or.inr ⟨k, h, fun he => hnB (he ▸ hf)⟩
      have h1 : groupCount (List.foldl pass1step [] (A ++ x :: B)) x = 1 := by
        rw [List.foldl_append, List.foldl_cons, pass1step_of_bb hbb]
        rw [foldl_count_pres B hB _]
        exact groupCount_addToGroup_fresh hfresh _
      have hP2 : ∀ res f, f ∈ A ++ x :: B → pass2step res f = res ∨
          ∃ k, pass2step res f = addToGroup res k f ∧ f ≠ x := by
        intro res f _
        rcases pass2step_shape res f with h | ⟨hext', k, h⟩
        · exact Or.inl h
        · refine Or.inr ⟨k, h, fun he => ?_⟩
          have hx1 : (splitext x).2 = ".bbappend".toList := he ▸ hext'
          exact absurd (hbb.symm.trans hx1) (by decide)
      rw [foldl_count_pres (A ++ x :: B) hP2 _]
      exact h1
    · -- x is an append file: pass 1 never touches it, pass 2 places it once
      have hns : x ∉ resElems (List.foldl pass1step [] (A ++ x :: B)) := by
        intro hx
        rcases foldl_elems _ pass1_elems_hyp (A ++ x :: B) [] x hx with h2 | ⟨_, h3⟩
        · simp [resElems] at h2
        · exact absurd (hba.symm.trans h3) (by decide)
      have hfresh : x ∉ resElems
          (List.foldl pass2step (List.foldl pass1step [] (A ++ x :: B)) A) := by
        intro hx
        rcases foldl_elems _ pass2_elems_hyp A _ x hx with h2 | ⟨h2, _⟩
        · exact hns h2
        · exact hnA h2
      obtain ⟨k, hk⟩ := pass2step_of_append hba
        (List.foldl pass2step (List.foldl pass1step [] (A ++ x :: B)) A)
      have hBne : ∀ res f, f ∈ B → pass2step res f = res ∨
          ∃ k1, pass2step res f = addToGroup res k1 f ∧ f ≠ x := by
        intro res f hf
        rcases pass2step_weak res f with h | ⟨k1, h⟩
        · exact Or.inl h
        · exact Or.inr ⟨k1, h, fun he => hnB (he ▸ hf)⟩
      have e2 : List.foldl pass2step (List.foldl pass1step [] (A ++ x :: B)) (A ++ x :: B)
          = List.foldl pass2step
              (pass2step (List.foldl pass2step
                (List.foldl pass1step [] (A ++ x :: B)) A) x) B := by
        rw [List.foldl_append, List.foldl_cons]
      rw [e2, foldl_count_pres B hBne _, hk]
      exact groupCount_addToGroup_fresh hfresh _
  · rw [if_neg hrec]
    apply groupCount_eq_zero
    intro hx
    rcases foldl_elems _ pass2_elems_hyp files _ x hx with h1 | ⟨hxa, hP⟩
    · rcases foldl_elems _ pass1_elems_hyp files [] x h1 with h2 | ⟨hxa, hP⟩
      · simp [resElems] at h2
      · exact hrec ⟨hxa, Or.inl hP⟩
    · exact hrec ⟨hxa, Or.inr hP⟩

/-- Witness for C3 (amended): on a small duplicate-free batch the recognized
file lies in exactly one group and the unrecognized one in none. -/
theorem C3_partition_of_nodup_witness :
    (["a_1.bb".toList, "b_2.bbappend".toList, "c.txt".toList] : List Path).Nodup ∧
    ((group_files ["a_1.bb".toList, "b_2.bbappend".toList, "c.txt".toList]).countP
        (fun g => decide ("a_1.bb".toList ∈ g)) =
      if ("a_1.bb".toList) ∈
            (["a_1.bb".toList, "b_2.bbappend".toList, "c.txt".toList] : List Path) ∧
          ((splitext ("a_1.bb".toList)).2 = ".bb".toList ∨
            (splitext ("a_1.bb".toList)).2 = ".bbappend".toList)
      then 1 else 0) :=
  ⟨by decide,
    C3_partition_of_nodup ["a_1.bb".toList, "b_2.bbappend".toList, "c.txt".toList]
      (by decide) ("a_1.bb".toList)⟩

/-! ### Trace lemmas for the execution loop and the fix transaction -/

theorem flatten_map_sublist {α β : Type} {a : α} {l : List α} (ha : a ∈ l)
    (h : α → List β) : List.Sublist (h a) ((l.map h).flatten) := by
  induction l with
  | nil => cases ha
  | cons b bs ih =>
    rcases List.mem_cons.mp ha with rfl | hm
    · rw [List.map_cons, List.flatten_cons]
      exact List.sublist_append_left _ _
    · rw [List.map_cons, List.flatten_cons]
      exact (ih hm).trans (List.sublist_append_right _ _)

theorem applyRule_trace {σ : Type} (args : Args) (j : Nat) (r : Rule σ)
    (f : Path) (st : LintState σ) :
    (applyRule args j r f st).trace = st.trace ++ ruleEvents args.fix j r f := by
  unfold applyRule ruleEvents
  by_cases h1 : (!r.onAppend && isAppendFile f) = true
  · simp [h1]
  · by_cases h2 : (r.onlyAppend && !isAppendFile f) = true
    · simp [h1, h2]
    · by_cases h3 : args.fix = true <;> simp [h1, h2, h3]

theorem applyRulesFrom_trace {σ : Type} (args : Args) :
    ∀ (rules : List (Rule σ)) (j : Nat) (f : Path) (st : LintState σ),
      (applyRulesFrom args rules j f st).trace
        = st.trace ++ fileEvents args.fix rules j f := by
  intro rules
  induction rules with
  | nil => intro j f st; simp [applyRulesFrom, fileEvents]
  | cons r rs ih =>
    intro j f st
    show (applyRulesFrom args rs (j + 1) f (applyRule args j r f st)).trace = _
    rw [ih, applyRule_trace, fileEvents, List.append_assoc]

theorem runFiles_trace {σ : Type} (args : Args) (rules : List (Rule σ)) :
    ∀ (files : List Path) (st : LintState σ),
      (runFiles args rules files st).trace
        = st.trace ++ (files.map (fun f => fileEvents args.fix rules 0 f)).flatten := by
  intro files
  induction files with
  | nil => intro st; simp [runFiles]
  | cons f fs ih =>
    intro st
    have e : runFiles args rules (f :: fs) st
        = runFiles args rules fs (applyRulesFrom args rules 0 f st) := rfl
    rw [e, ih, applyRulesFrom_trace, List.map_cons, List.flatten_cons,
      List.append_assoc]

theorem mem_ruleEvents {σ : Type} {fixMode : Bool} {j : Nat} {r : Rule σ}
    {f : Path} {e : Ev} (he : e ∈ ruleEvents fixMode j r f) :
    e = Ev.fixCall j f ∨ e = Ev.checkCall j f := by
  unfold ruleEvents at he
  by_cases h1 : (!r.onAppend && isAppendFile f) = true
  · simp [h1] at he
  · by_cases h2 : (r.onlyAppend && !isAppendFile f) = true
    · simp [h1, h2] at he
    · by_cases h3 : fixMode = true
      · simp [h1, h2, h3] at he
        exact he
      · simp [h1, h2, h3] at he
        exact Or.inr he

theorem mem_fileEvents {σ : Type} {fixMode : Bool} :
    ∀ {rules : List (Rule σ)} {j : Nat} {f : Path} {e : Ev},
      e ∈ fileEvents fixMode rules j f →
        ∃ i, j ≤ i ∧ (e = Ev.fixCall i f ∨ e = Ev.checkCall i f) := by
  intro rules
  induction rules with
  | nil => intro j f e he; simp [fileEvents] at he
  | cons r rs ih =>
    intro j f e he
    rw [fileEvents] at he
    rcases List.mem_append.mp he with h1 | h2
    · exact ⟨j, Nat.le_refl j, mem_ruleEvents h1⟩
    · obtain ⟨i, hi, h⟩ := ih h2
      exact ⟨i, Nat.le_trans (Nat.le_succ j) hi, h⟩

theorem fileEvents_decomp {σ : Type} {fixMode : Bool} {f : Path} :
    ∀ (rules : List (Rule σ)) (dj j0 : Nat) (r : Rule σ), rules[dj]? = some r →
      ∃ P S, fileEvents fixMode rules j0 f
          = P ++ ruleEvents fixMode (j0 + dj) r f ++ S ∧
        (∀ e ∈ P, ∃ i, i ≠ j0 + dj ∧ (e = Ev.fixCall i f ∨ e = Ev.checkCall i f)) ∧
        (∀ e ∈ S, ∃ i, i ≠ j0 + dj ∧ (e = Ev.fixCall i f ∨ e = Ev.checkCall i f)) := by
  intro rules
  induction rules with
  | nil => intro dj j0 r h; simp at h
  | cons r0 rs ih =>
    intro dj j0 r h
    cases dj with
    | zero =>
      have hr : r0 = r := by simpa using h
      subst hr
      refine ⟨[], fileEvents fixMode rs (j0 + 1) f, by simp [fileEvents], by simp, ?_⟩
      intro e he
      obtain ⟨i, hi, hor⟩ := mem_fileEvents he
      exact ⟨i, by omega, hor⟩
    | succ dj =>
      have h' : rs[dj]? = some r := by simpa using h
      obtain ⟨P, S, heq, hP, hS⟩ := ih dj (j0 + 1) r h'
      have harith : j0 + 1 + dj = j0 + (dj + 1) := by omega
      rw [harith] at heq hP hS
      refine ⟨ruleEvents fixMode j0 r0 f ++ P, S, ?_, ?_, hS⟩
      · rw [fileEvents, heq]
        simp [List.append_assoc]
      · intro e he
        rcases List.mem_append.mp he with h1 | h1
        · obtain hor := mem_ruleEvents h1
          exact ⟨j0, by omega, hor⟩
        · exact hP e h1

/-! ### Claim C4 -/

/-- C4: in fix mode, for every target file `f` and every applicable rule
(position `j` of the rule list), the execution-loop trace contains exactly
one `fix` call and exactly one `check` call for that (rule, file) pair, with
the `check` call immediately after the `fix` call — `check` is never invoked
before `fix`.  Moreover the files returned by `fix` are appended to the
running fixed-file list, and the findings that `check` computes *on the
stash state the fix left behind* are appended to the running finding list. -/
theorem C4_fix_before_check {σ : Type} (args : Args) (rules : List (Rule σ))
    (files : List Path) (st : LintState σ) (f : Path) (j : Nat) (r : Rule σ)
    (hnd : files.Nodup) (hf : f ∈ files) (hr : rules[j]? = some r)
    (h1 : (!r.onAppend && isAppendFile f) = false)
    (h2 : (r.onlyAppend && !isAppendFile f) = false)
    (hfix : args.fix = true) (htr : st.trace = []) :
    (∃ P S, (runFiles args rules files st).trace
        = P ++ Ev.fixCall j f :: Ev.checkCall j f :: S ∧
      Ev.fixCall j f ∉ P ∧ Ev.fixCall j f ∉ S ∧
      Ev.checkCall j f ∉ P ∧ Ev.checkCall j f ∉ S) ∧
    (∀ st0 : LintState σ,
      (applyRule args j r f st0).fixedfiles
          = st0.fixedfiles ++ (r.fix f st0.stash).2 ∧
      (applyRule args j r f st0).issues
          = st0.issues ++ r.check f (r.fix f st0.stash).1) := by
  constructor
  · rw [runFiles_trace, htr, List.nil_append]
    obtain ⟨A, B, rfl⟩ := List.append_of_mem hf
    have hsplit := List.nodup_append.mp hnd
    have hnA : f ∉ A := fun hx => hsplit.2.2 hx (List.mem_cons_self _ _)
    have hnB : f ∉ B := (List.nodup_cons.mp hsplit.2.1).1
    obtain ⟨P0, S0, heq, hP0, hS0⟩ := fileEvents_decomp rules j 0 r hr
    rw [Nat.zero_add] at heq hP0 hS0
    have hre : ruleEvents args.fix j r f = [Ev.fixCall j f, Ev.checkCall j f] := by
      unfold ruleEvents
      simp [h1, h2, hfix]
    rw [hre] at heq
    have hmapsplit :
        ((A ++ f :: B).map (fun g => fileEvents args.fix rules 0 g)).flatten
          = (A.map (fun g => fileEvents args.fix rules 0 g)).flatten
            ++ fileEvents args.fix rules 0 f
            ++ (B.map (fun g => fileEvents args.fix rules 0 g)).flatten := by
      simp
    have hsideA : ∀ e ∈ (A.map (fun g => fileEvents args.fix rules 0 g)).flatten,
        e ≠ Ev.fixCall j f ∧ e ≠ Ev.checkCall j f := by
      intro e he
      obtain ⟨s, hs, hes⟩ := List.mem_flatten.mp he
      obtain ⟨g, hg, rfl⟩ := List.mem_map.mp hs
      obtain ⟨i, _, hor⟩ := mem_fileEvents hes
      have hgf : g ≠ f := fun hgf => hnA (hgf ▸ hg)
      rcases hor with rfl | rfl
      · exact ⟨by simp [hgf], by simp⟩
      · exact ⟨by simp, by simp [hgf]⟩
    have hsideB : ∀ e ∈ (B.map (fun g => fileEvents args.fix rules 0 g)).flatten,
        e ≠ Ev.fixCall j f ∧ e ≠ Ev.checkCall j f := by
      intro e he
      obtain ⟨s, hs, hes⟩ := List.mem_flatten.mp he
      obtain ⟨g, hg, rfl⟩ := List.mem_map.mp hs
      obtain ⟨i, _, hor⟩ := mem_fileEvents hes
      have hgf : g ≠ f := fun hgf => hnB (hgf ▸ hg)
      rcases hor with rfl | rfl
      · exact ⟨by simp [hgf], by simp⟩
      · exact ⟨by simp, by simp [hgf]⟩
    have hsideP : ∀ e ∈ P0, e ≠ Ev.fixCall j f ∧ e ≠ Ev.checkCall j f := by
      intro e he
      obtain ⟨i, hij, hor⟩ := hP0 e he
      rcases hor with rfl | rfl
      · exact ⟨by simp [hij], by simp⟩
      · exact ⟨by simp, by simp [hij]⟩
    have hsideS : ∀ e ∈ S0, e ≠ Ev.fixCall j f ∧ e ≠ Ev.checkCall j f := by
      intro e he
      obtain ⟨i, hij, hor⟩ := hS0 e he
      rcases hor with rfl | rfl
      · exact ⟨by simp [hij], by simp⟩
      · exact ⟨by simp, by simp [hij]⟩
    refine ⟨(A.map (fun g => fileEvents args.fix rules 0 g)).flatten ++ P0,
      S0 ++ (B.map (fun g => fileEvents args.fix rules 0 g)).flatten, ?_, ?_, ?_, ?_, ?_⟩
    · rw [hmapsplit, heq]
      simp [List.append_assoc]
    · intro hmem
      rcases List.mem_append.mp hmem with hm | hm
      · exact (hsideA _ hm).1 rfl
      · exact (hsideP _ hm).1 rfl
    · intro hmem
      rcases List.mem_append.mp hmem with hm | hm
      · exact (hsideS _ hm).1 rfl
      · exact (hsideB _ hm).1 rfl
    · intro hmem
      rcases List.mem_append.mp hmem with hm | hm
      · exact (hsideA _ hm).2 rfl
      · exact (hsideP _ hm).2 rfl
    · intro hmem
      rcases List.mem_append.mp hmem with hm | hm
      · exact (hsideS _ hm).2 rfl
      · exact (hsideB _ hm).2 rfl
  · intro st0
    unfold applyRule
    simp [h1, h2, hfix]

/-- Witness for C4: one rule, one file, fix mode on. -/
theorem C4_fix_before_check_witness :
    ([("a.bb".toList : Path)].Nodup) ∧
    ((!demoRule.onAppend && isAppendFile ("a.bb".toList)) = false) ∧
    ((demoRule.onlyAppend && !isAppendFile ("a.bb".toList)) = false) ∧
    ((∃ P S, (runFiles ⟨true, false, false⟩ [demoRule] ["a.bb".toList]
          ⟨[], [], [], []⟩).trace
        = P ++ Ev.fixCall 0 ("a.bb".toList) :: Ev.checkCall 0 ("a.bb".toList) :: S ∧
      Ev.fixCall 0 ("a.bb".toList) ∉ P ∧ Ev.fixCall 0 ("a.bb".toList) ∉ S ∧
      Ev.checkCall 0 ("a.bb".toList) ∉ P ∧ Ev.checkCall 0 ("a.bb".toList) ∉ S) ∧
    (∀ st0 : LintState (List Path),
      (applyRule ⟨true, false, false⟩ 0 demoRule ("a.bb".toList) st0).fixedfiles
          = st0.fixedfiles ++ (demoRule.fix ("a.bb".toList) st0.stash).2 ∧
      (applyRule ⟨true, false, false⟩ 0 demoRule ("a.bb".toList) st0).issues
          = st0.issues
            ++ demoRule.check ("a.bb".toList)
                (demoRule.fix ("a.bb".toList) st0.stash).1)) :=
  ⟨by decide, by decide, by decide,
    C4_fix_before_check ⟨true, false, false⟩ [demoRule] ["a.bb".toList]
      ⟨[], [], [], []⟩ ("a.bb".toList) 0 demoRule
      (by decide) (by decide) rfl (by decide) (by decide) rfl rfl⟩

/-! ### Claim C5 -/

/-- C5: for every file `x` of the deduplicated fixed-file list, the fix
transaction processes `x` itself and every file the stash links to `x`: each
such file is renamed to its backup (unless backups are disabled) and then
rewritten with the concatenated raw text of its stash items — even though the
fixing rule was only ever invoked with `x`. -/
theorem C5_fix_rewrites_linked_files {σ : Type} (SM : StashModel σ)
    (args : Args) (stash : σ) (fixedfiles : List Path) (x : Path)
    (hx : x ∈ fixedfiles) (i : Path)
    (hi : i ∈ x :: SM.getLinksForFile stash x) :
    List.Sublist
      (if args.nobackup then [Ev.rewrite i ((SM.getItemsFor stash i).flatten)]
       else [Ev.rename i (i ++ ".bak".toList),
             Ev.rewrite i ((SM.getItemsFor stash i).flatten)])
      (fixTransaction SM args stash fixedfiles.dedup) := by
  have hfe : (if args.nobackup then
        [Ev.rewrite i ((SM.getItemsFor stash i).flatten)]
      else [Ev.rename i (i ++ ".bak".toList),
            Ev.rewrite i ((SM.getItemsFor stash i).flatten)])
      = fixFileEvents SM args stash i := by
    unfold fixFileEvents
    by_cases h : args.nobackup = true <;> simp [h]
  rw [hfe]
  have hx1 : x ∈ fixedfiles.dedup := List.mem_dedup.mpr hx
  have h1 : List.Sublist (fixFileEvents SM args stash i)
      (((x :: SM.getLinksForFile stash x).map (fixFileEvents SM args stash)).flatten) :=
    flatten_map_sublist hi _
  have h2 : List.Sublist
      (((x :: SM.getLinksForFile stash x).map (fixFileEvents SM args stash)).flatten)
      (fixTransaction SM args stash fixedfiles.dedup) :=
    flatten_map_sublist hx1
      (fun g => ((g :: SM.getLinksForFile stash g).map (fixFileEvents SM args stash)).flatten)
  exact h1.trans h2

/-- Witness for C5: the file linked to the fixed file is backed up and
rewritten although only the fixed file itself was in the fixed-file list. -/
theorem C5_fix_rewrites_linked_files_witness :
    (("a".toList : Path) ∈ (["a".toList] : List Path)) ∧
    (("lnk".toList : Path) ∈
      ("a".toList : Path) :: demoSM.getLinksForFile [] ("a".toList)) ∧
    List.Sublist
      [Ev.rename ("lnk".toList) ("lnk".toList ++ ".bak".toList),
       Ev.rewrite ("lnk".toList) ((demoSM.getItemsFor [] ("lnk".toList)).flatten)]
      (fixTransaction demoSM ⟨true, false, false⟩ [] (["a".toList] : List Path).dedup) := by
  refine ⟨by decide, by decide, ?_⟩
  have h := C5_fix_rewrites_linked_files demoSM ⟨true, false, false⟩ []
    ["a".toList] ("a".toList) (by decide) ("lnk".toList) (by decide)
  simpa using h

/-! ### Claim C6 -/

/-- C6: on a run that reaches the reporter, the value passed to `sys.exit`
(the observed process status) equals the number of unique findings
accumulated across all groups, findings compared by full equality of the
`(sort key, display line)` pair.  (The embedding models the argument handed
to `sys.exit`; the operating system's truncation of statuses to one byte lies
outside the program.) -/
theorem C6_exit_eq_unique_findings {σ : Type} (SM : StashModel σ)
    (args : Args) (rules : List (Rule σ)) (files : List Path) :
    observedExit (mainRun SM args rules files)
      = ((mainPipeline SM args rules files).1).toFinset.card := by
  show exitArg (mainPipeline SM args rules files).1 = _
  unfold exitArg reportedFindings
  rw [(List.perm_insertionSort keyLe
    ((mainPipeline SM args rules files).1).dedup).length_eq]
  exact (List.card_toFinset _).symm

/-! ### Claim C7 -/

/-- C7, counterexample: two findings with *different* sort keys but the same
display line both survive deduplication (which compares full pairs), so the
same display line is written twice — the Reporter does not deduplicate by
line. -/
theorem C7_counterexample :
    outputLines [("a".toList, "dup".toList), ("b".toList, "dup".toList)]
      = ["dup".toList, "dup".toList] := by
  decide

/-- C7 (amended): the Reporter never emits the same *(sort key, display
line)* pair twice — duplicates across rules and groups are removed by full
pair equality — and the emitted findings are ordered ascending by sort key;
two distinct findings that share a display line do, however, produce the same
line twice (see the counterexample). -/
theorem C7_reporter_dedup_and_sorted (issues : List Finding) :
    (reportedFindings issues).Nodup ∧
    List.Sorted keyLe (reportedFindings issues) ∧
    outputLines issues = (reportedFindings issues).map Prod.snd := by
  refine ⟨?_, ?_, rfl⟩
  · exact (List.perm_insertionSort keyLe issues.dedup).nodup_iff.mpr
      (List.nodup_dedup issues)
  · exact List.sorted_insertionSort keyLe issues.dedup

/-! ### Claim C8 -/

/-- C8, counterexample: with `--quiet` the unreadable file is skipped and
ingestion continues, but *no* diagnostic is logged (the print is inside
`if not the quiet flag`); the same run without `--quiet` does log it.  The
claim's "a diagnostic is logged" therefore does not hold universally. -/
theorem C8_counterexample :
    ingest demoSM.addFile true (demoSM.init, [])
        ["good.bb".toList, "bad".toList, "good2.bb".toList]
      = (["good.bb".toList, "good2.bb".toList], []) ∧
    ingest demoSM.addFile false (demoSM.init, [])
        ["good.bb".toList, "bad".toList, "good2.bb".toList]
      = (["good.bb".toList, "good2.bb".toList], [Ev.skipLog ("bad".toList)]) := by
  decide

/-- C8 (amended): a file whose `AddFile` raises the not-found error is a
non-fatal skip: it contributes nothing to the stash state, every remaining
file of the group is still ingested, and one diagnostic per unreadable file
is logged *unless quiet mode is enabled*. -/
theorem C8_ingest_skips_and_continues {σ : Type} (readable : Path → Bool)
    (upd : σ → Path → σ) (quiet : Bool) (s : σ) (tr : List Ev)
    (group : List Path) :
    ingest (readableAddFile readable upd) quiet (s, tr) group
      = ((group.filter readable).foldl upd s,
         tr ++ if quiet then []
               else (group.filter (fun f => !readable f)).map Ev.skipLog) := by
  induction group generalizing s tr with
  | nil => cases quiet <;> simp [ingest]
  | cons g gs ih =>
    by_cases hg : readable g = true
    · have e : ingest (readableAddFile readable upd) quiet (s, tr) (g :: gs)
          = ingest (readableAddFile readable upd) quiet (upd s g, tr) gs := by
        simp [ingest, readableAddFile, hg]
      rw [e, ih]
      simp [List.filter_cons, hg]
    · have e : ingest (readableAddFile readable upd) quiet (s, tr) (g :: gs)
          = ingest (readableAddFile readable upd) quiet
              (s, tr ++ (if quiet then [] else [Ev.skipLog g])) gs := by
        simp [ingest, readableAddFile, hg]
      rw [e, ih]
      cases quiet <;> simp [List.filter_cons, hg]

/-! ### Claim C9 -/

/-- C9: an exception escaping the grouping/execution/fix/reporting pipeline
is caught by the top-level handler, which prints the OOPS diagnostic naming
the input file list (with a traceback) and lets `main` return normally — so
the interpreter exits with status 0, indistinguishable by exit code from a
clean run that found nothing.  (`sys.exit` raises `SystemExit`, which the
`except Exception` clause does not catch.) -/
theorem C9_pipeline_exception_exits_zero (files : List Path) (e : String) :
    mainTop files (.raised e) = .oopsReturned files ∧
    observedExit (mainTop files (.raised e)) = 0 ∧
    observedExit (mainTop files (.completed 0)) = 0 :=
  ⟨rfl, rfl, rfl⟩

end OelintAdv
